import Mathlib

/-
Shallow embedding of the bucket-label parser and bucket matcher of
poly-darren/analyzer (frontend/src/App.vue: parseOutcomeTitle,
outcomeMatchesValue, findOutcomeForValue, bucketNow; and the legacy
matchesOutcome kept elsewhere in the frontend sources).

Strings are modelled as lists of characters.  The three JavaScript regexes

  R1 = (-?\d+)\s*°?\s*c\s*(?:-|–|—|to)\s*(-?\d+)\s*°?\s*c
  R2 = between\s+(-?\d+)\s*°?\s*c?\s+and\s+(-?\d+)\s*°?\s*c?
  S  = (-?\d+)\s*°?\s*c

are embedded as explicit matchers.  Wherever a greedy quantifier is followed
by a token that cannot overlap with the quantified class (digits before a
degree sign, spaces before a letter, ...), maximal munch is equivalent to
the backtracking semantics and is used directly; in R2 the region
\s*°?\s*c?\s+ between the first capture and "and" genuinely needs
backtracking and is searched in the engine's greedy priority order.  The
trailing \s*°?\s*c? of R2 always succeeds and binds no capture, so it is
omitted.  `String.match` scans start positions left to right; `scanMatch`
does the same over list suffixes.  Number.parseInt on a capture of the form
-?\d+ never yields NaN, so the matchers return the integer value directly.
JavaScript toLowerCase is modelled on the ASCII range (every non-ASCII
character appearing in bucket labels, namely ° – —, is a fixed point of
toLowerCase).  Fractional numbers (temperatures, representative midpoints)
are modelled as rationals.
-/

namespace Analyzer

/-- JavaScript \d character class. -/
def jsDigit (c : Char) : Bool := decide (48 ≤ c.toNat ∧ c.toNat ≤ 57)

/-- JavaScript \s character class (whitespace code points). -/
def jsSpace (c : Char) : Bool :=
  decide (c.toNat = 32 ∨ c.toNat = 9 ∨ c.toNat = 10 ∨ c.toNat = 11 ∨ c.toNat = 12 ∨
    c.toNat = 13 ∨ c.toNat = 160 ∨ c.toNat = 5760 ∨
    (8192 ≤ c.toNat ∧ c.toNat ≤ 8202) ∨ c.toNat = 8232 ∨ c.toNat = 8233 ∨
    c.toNat = 8239 ∨ c.toNat = 8287 ∨ c.toNat = 12288 ∨ c.toNat = 65279)

/-- JavaScript String.toLowerCase restricted to the ASCII letters. -/
def jsToLower (c : Char) : Char :=
  if h : 65 ≤ c.toNat ∧ c.toNat ≤ 90 then
    Char.ofNatAux (c.toNat + 32) (Or.inl (by omega))
  else c

/-- Does `pat` occur at the head of `s`?  (building block of String.includes) -/
def beginsWith : List Char → List Char → Bool
  | [], _ => true
  | _ :: _, [] => false
  | p :: ps, x :: xs => p = x && beginsWith ps xs

/-- JavaScript String.includes: `pat` occurs somewhere in `s`. -/
def containsPat (pat : List Char) : List Char → Bool
  | [] => pat.isEmpty
  | c :: r => beginsWith pat (c :: r) || containsPat pat r

/-- Greedy \s* where the following token cannot be a space. -/
def dropSpaces (s : List Char) : List Char := s.dropWhile jsSpace

/-- Greedy X? for a single character where not consuming cannot help. -/
def skipOpt (c : Char) (s : List Char) : List Char :=
  match s with
  | x :: r => if x = c then r else s
  | [] => s

/-- Match one literal character. -/
def expectChar (c : Char) (s : List Char) : Option (List Char) :=
  match s with
  | x :: r => if x = c then some r else none
  | [] => none

/-- Match a literal string. -/
def expectLit : List Char → List Char → Option (List Char)
  | [], s => some s
  | _ :: _, [] => none
  | c :: p, x :: s => if x = c then expectLit p s else none

/-- Numeric value of a list of decimal digit characters (parseInt base 10). -/
def digitsToNat (ds : List Char) : ℕ :=
  ds.foldl (fun a c => 10 * a + (c.toNat - 48)) 0

/-- Capture group (-?\d+), returning the parseInt value and the rest. -/
def capInt (s : List Char) : Option (ℤ × List Char) :=
  match s with
  | [] => none
  | c :: rest =>
    if c = '-' then
      let ds := rest.takeWhile jsDigit
      if ds.isEmpty then none
      else some (-(digitsToNat ds : ℤ), rest.dropWhile jsDigit)
    else
      let ds := (c :: rest).takeWhile jsDigit
      if ds.isEmpty then none
      else some ((digitsToNat ds : ℤ), (c :: rest).dropWhile jsDigit)

/-- The \s*°?\s*c part common to R1 and S (deterministic: no overlaps). -/
def tailC (s : List Char) : Option (List Char) :=
  expectChar 'c' (dropSpaces (skipOpt '°' (dropSpaces s)))

/-- The separator alternation (?:-|–|—|to), tried in that order. -/
def altSep (s : List Char) : Option (List Char) :=
  (expectChar '-' s).orElse fun _ =>
    (expectChar '–' s).orElse fun _ =>
      (expectChar '—' s).orElse fun _ =>
        expectLit ['t', 'o'] s

/-- All remainders of consuming \s* greedily, longest consumed first. -/
def spaceSplits : List Char → List (List Char)
  | [] => [([] : List Char)]
  | c :: r => if jsSpace c then spaceSplits r ++ [c :: r] else [c :: r]

/-- Both remainders for X?: consuming first (greedy), then not consuming. -/
def optSplits (c : Char) (s : List Char) : List (List Char) :=
  match s with
  | x :: r => if x = c then [r, x :: r] else [x :: r]
  | [] => [([] : List Char)]

/-- Greedy \s+ where the following token cannot be a space. -/
def plusSpacesMax (s : List Char) : Option (List Char) :=
  match s with
  | x :: r => if jsSpace x then some (dropSpaces r) else none
  | [] => none

/-- Regex R1 anchored at the current position. -/
def matchR1At (s : List Char) : Option (ℤ × ℤ) :=
  match capInt s with
  | none => none
  | some (a, s1) =>
    match tailC s1 with
    | none => none
    | some s2 =>
      match altSep (dropSpaces s2) with
      | none => none
      | some s3 =>
        match capInt (dropSpaces s3) with
        | none => none
        | some (b, s4) =>
          match tailC s4 with
          | none => none
          | some _ => some (a, b)

/-- The \s*°?\s*c?\s+and\s+(-?\d+) part of R2, with full backtracking over
the optional degree/letter region, in greedy priority order. -/
def r2Tail (s3 : List Char) : Option (ℤ × List Char) :=
  (spaceSplits s3).findSome? fun t1 =>
    (optSplits '°' t1).findSome? fun t2 =>
      (spaceSplits t2).findSome? fun t3 =>
        (optSplits 'c' t3).findSome? fun t4 =>
          match plusSpacesMax t4 with
          | none => none
          | some u1 =>
            match expectLit ['a', 'n', 'd'] u1 with
            | none => none
            | some u2 =>
              match plusSpacesMax u2 with
              | none => none
              | some u3 => capInt u3

/-- Regex R2 anchored at the current position. -/
def matchR2At (s : List Char) : Option (ℤ × ℤ) :=
  match expectLit ['b', 'e', 't', 'w', 'e', 'e', 'n'] s with
  | none => none
  | some s1 =>
    match plusSpacesMax s1 with
    | none => none
    | some s2 =>
      match capInt s2 with
      | none => none
      | some (a, s3) =>
        match r2Tail s3 with
        | none => none
        | some (b, _) => some (a, b)

/-- Regex S anchored at the current position. -/
def matchSAt (s : List Char) : Option ℤ :=
  match capInt s with
  | none => none
  | some (n, s1) =>
    match tailC s1 with
    | none => none
    | some _ => some n

/-- Leftmost-match scan over all start positions, as String.match does. -/
def scanMatch (f : List Char → Option α) : List Char → Option α
  | [] => f []
  | c :: r => (f (c :: r)).orElse fun _ => scanMatch f r

/-- ParsedOutcome record of App.vue (repr modelled as a rational since the
midpoint of an odd-sum range is a half-integer in JavaScript). -/
structure ParsedOutcome where
  lower : Option ℤ
  upper : Option ℤ
  repr : Option ℚ
deriving DecidableEq

/-- Body of parseOutcomeTitle after lowercasing. -/
def parseTitleChars (text : List Char) : Option ParsedOutcome :=
  match (scanMatch matchR1At text).orElse fun _ => scanMatch matchR2At text with
  | some (a, b) =>
    let lower := if a ≤ b then a else b
    let upper := if a ≤ b then b else a
    some ⟨some lower, some upper, some (((lower : ℚ) + (upper : ℚ)) / 2)⟩
  | none =>
    match scanMatch matchSAt text with
    | none => none
    | some n =>
      if containsPat "or below".data text || containsPat "or lower".data text then
        some ⟨none, some n, some (n : ℚ)⟩
      else if containsPat "or higher".data text || containsPat "or above".data text then
        some ⟨some n, none, some (n : ℚ)⟩
      else
        some ⟨some n, some n, some (n : ℚ)⟩

/-- parseOutcomeTitle (App.vue 860-891).  A null/undefined or empty title is
falsy in JavaScript and yields null. -/
def parseOutcomeTitle (title : Option String) : Option ParsedOutcome :=
  match title with
  | none => none
  | some t =>
    if t.data = [] then none
    else parseTitleChars (t.data.map jsToLower)

/-- outcomeMatchesValue (App.vue 893-905). -/
def outcomeMatchesValue (title : Option String) (v : ℤ) : Bool :=
  match parseOutcomeTitle title with
  | none => false
  | some p =>
    match p.lower, p.upper with
    | some lo, some hi => decide (lo ≤ v ∧ v ≤ hi)
    | some lo, none => decide (lo ≤ v)
    | none, some hi => decide (v ≤ hi)
    | none, none => false

/-- Legacy matchesOutcome (single-integer parse only; no range pattern). -/
def matchesOutcome (title : Option String) (v : ℤ) : Bool :=
  match title with
  | none => false
  | some t =>
    if t.data = [] then false
    else
      let text := t.data.map jsToLower
      match scanMatch matchSAt text with
      | none => false
      | some n =>
        if containsPat "or below".data text || containsPat "or lower".data text then
          decide (v ≤ n)
        else if containsPat "or higher".data text || containsPat "or above".data text then
          decide (n ≤ v)
        else decide (v = n)

/-- Does either range regex match somewhere in the lowercased title? -/
def hasRangePattern (title : Option String) : Bool :=
  match title with
  | none => false
  | some t =>
    let text := t.data.map jsToLower
    (scanMatch matchR1At text).isSome || (scanMatch matchR2At text).isSome

/-- An element of the outcomes array passed to findOutcomeForValue. -/
structure Outcome where
  title : Option String
  tokenId : Option String
deriving DecidableEq

/-- Loop state of findOutcomeForValue. -/
structure FindState where
  exact : Option Outcome
  bestRange : Option Outcome
  bestRangeWidth : Option ℤ
  boundary : Option Outcome
deriving DecidableEq

/-- One iteration of the findOutcomeForValue loop (App.vue 916-950). -/
def findStep (v : ℤ) (st : FindState) (o : Outcome) : FindState :=
  match parseOutcomeTitle o.title with
  | none => st
  | some p =>
    match p.lower, p.upper with
    | some lo, some hi =>
      if lo = v ∧ hi = v then { st with exact := some o }
      else if lo ≤ v ∧ v ≤ hi then
        let width := hi - lo
        match st.bestRangeWidth with
        | none => { st with bestRange := some o, bestRangeWidth := some width }
        | some bw =>
          if width < bw then { st with bestRange := some o, bestRangeWidth := some width }
          else st
      else st
    | some lo, none =>
      if lo ≤ v then
        match st.boundary with
        | none => { st with boundary := some o }
        | some _ => st
      else st
    | none, some hi =>
      if v ≤ hi then
        match st.boundary with
        | none => { st with boundary := some o }
        | some _ => st
      else st
    | none, none => st

/-- findOutcomeForValue (App.vue 907-953): exact ?? bestRange ?? boundary. -/
def findOutcomeForValue (outcomes : List Outcome) (v : ℤ) : Option Outcome :=
  let st := outcomes.foldl (findStep v) ⟨none, none, none, none⟩
  st.exact.orElse fun _ => st.bestRange.orElse fun _ => st.boundary

/-- Classification used by the loop: parses with lower = upper = v. -/
def isExactFor (v : ℤ) (o : Outcome) : Bool :=
  match parseOutcomeTitle o.title with
  | some p =>
    match p.lower, p.upper with
    | some lo, some hi => decide (lo = v ∧ hi = v)
    | _, _ => false
  | none => false

/-- Classification used by the loop: a non-exact range containing v. -/
def isRangeFor (v : ℤ) (o : Outcome) : Bool :=
  match parseOutcomeTitle o.title with
  | some p =>
    match p.lower, p.upper with
    | some lo, some hi => decide (¬(lo = v ∧ hi = v) ∧ lo ≤ v ∧ v ≤ hi)
    | _, _ => false
  | none => false

/-- Classification used by the loop: open-ended bucket admitting v. -/
def isBoundaryFor (v : ℤ) (o : Outcome) : Bool :=
  match parseOutcomeTitle o.title with
  | some p =>
    match p.lower, p.upper with
    | some lo, none => decide (lo ≤ v)
    | none, some hi => decide (v ≤ hi)
    | _, _ => false
  | none => false

/-- Width upper - lower of a parsed range bucket (0 on any other shape). -/
def widthOf (o : Outcome) : ℤ :=
  match parseOutcomeTitle o.title with
  | some p =>
    match p.lower, p.upper with
    | some lo, some hi => hi - lo
    | _, _ => 0
  | none => 0

/-- Projection of the loop body onto the exact field: last match wins. -/
def stepE (v : ℤ) (a : Option Outcome) (o : Outcome) : Option Outcome :=
  if isExactFor v o then some o else a

/-- Projection of the loop body onto the (bestRange, bestRangeWidth) pair:
strictly narrower ranges replace the current best. -/
def stepR (v : ℤ) (a : Option (Outcome × ℤ)) (o : Outcome) : Option (Outcome × ℤ) :=
  if isRangeFor v o then
    match a with
    | none => some (o, widthOf o)
    | some (_, w') => if widthOf o < w' then some (o, widthOf o) else a
  else a

/-- Projection of the loop body onto the boundary field: first match wins. -/
def stepB (v : ℤ) (a : Option Outcome) (o : Outcome) : Option Outcome :=
  match a with
  | some _ => a
  | none => if isBoundaryFor v o then some o else none

/-- Decimal digit character for a digit value below 10. -/
def digitChar10 (d : ℕ) : Char :=
  match d with
  | 0 => '0' | 1 => '1' | 2 => '2' | 3 => '3' | 4 => '4'
  | 5 => '5' | 6 => '6' | 7 => '7' | 8 => '8' | _ => '9'

/-- Decimal rendering of a natural number, most significant digit first. -/
def natLit (n : ℕ) : List Char :=
  if n = 0 then ['0'] else (Nat.digits 10 n).reverse.map digitChar10

/-- Decimal rendering of an integer (minus sign for negatives). -/
def intLit (z : ℤ) : List Char :=
  if z < 0 then '-' :: natLit z.natAbs else natLit z.natAbs

/-- Label of the form "A°c<sep>B°c" for a separator sep. -/
def dashLabel (a b : ℤ) (sep : List Char) : List Char :=
  intLit a ++ '°' :: 'c' :: (sep ++ (intLit b ++ ['°', 'c']))

/-- Label of the form "between A and B". -/
def betweenLabel (a b : ℤ) : List Char :=
  ('b' :: 'e' :: 't' :: 'w' :: 'e' :: 'e' :: 'n' :: ' ' :: intLit a) ++
    (' ' :: 'a' :: 'n' :: 'd' :: ' ' :: intLit b)

/-- Example buckets of the spec scenario: exact -2, range -1..1, open 2-above. -/
def exExact : Outcome := ⟨some "-2°C", some "tok-exact"⟩

/-- Range bucket -1..1 of the spec scenario. -/
def exRange : Outcome := ⟨some "-1°C to 1°C", some "tok-range"⟩

/-- Open-above bucket (lower 2, no upper) of the spec scenario. -/
def exOpen : Outcome := ⟨some "2°C or above", some "tok-open"⟩

/-- The spec scenario bucket collection. -/
def exBuckets : List Outcome := [exExact, exRange, exOpen]

/-- First of two buckets whose labels parse to the same exact value -2. -/
def dupFirst : Outcome := ⟨some "-2°C", some "dup-a"⟩

/-- Second of two buckets whose labels parse to the same exact value -2. -/
def dupSecond : Outcome := ⟨some "-2°C", some "dup-b"⟩

/-- A collection with duplicate exact-match labels. -/
def dupBuckets : List Outcome := [dupFirst, dupSecond]

/-- A wide containing range followed by a narrower one. -/
def widthBuckets : List Outcome :=
  [⟨some "-1°C to 3°C", some "wide"⟩, ⟨some "0°C to 2°C", some "narrow"⟩]

/-- A collection with one unparseable label and one non-matching bucket. -/
def noMatchBuckets : List Outcome :=
  [⟨some "sunny", some "junk"⟩, ⟨some "7°C", some "seven"⟩]

/-- JavaScript Math.round: floor(x + 1/2). -/
def jsRound (q : ℚ) : ℤ := ⌊q + 1 / 2⌋

/-- bucketNow (App.vue 790-796): the finalized whole-degree day high if
present, otherwise Math.round of the running day high, otherwise null. -/
def bucketNow (dayHighCelsiusWhole : Option ℤ) (dayHigh : Option ℚ) : Option ℤ :=
  match dayHighCelsiusWhole with
  | some w => some w
  | none =>
    match dayHigh with
    | some t => some (jsRound t)
    | none => none

/-- C2 claim (code bug): with no finalized whole-degree record, the claim and
the repository documentation (specs/visualization.md: floor(max(temp_c)))
require the bucket-selection value to be the floor of the running day high,
but bucketNow applies Math.round: at day high 3.8 °C the code yields 4 while
the documented floor is 3. -/
theorem C2_bucketNow_rounds_not_floors :
    bucketNow none (some ((19 : ℚ) / 5)) = some 4 ∧ ⌊(19 : ℚ) / 5⌋ = 3 ∧ (4 : ℤ) ≠ 3 := by
  have h1 : jsRound ((19 : ℚ) / 5) = 4 := by
    unfold jsRound
    rw [Int.floor_eq_iff]
    norm_num
  refine ⟨?_, ?_, by decide⟩
  · show some (jsRound ((19 : ℚ) / 5)) = some 4
    rw [h1]
  · rw [Int.floor_eq_iff]
    norm_num

unseal Rat.add Rat.mul Rat.inv in
/-- C6 claim: label parsing round-trips on the documented examples:
"-2°C" gives bounds -2 and -2 with representative -2, "5°C or below" gives
an upper bound 5 with representative 5, and "between -2 and 0" gives bounds
-2 and 0 with representative -1. -/
theorem C6_parse_documented_examples :
    parseOutcomeTitle (some "-2°C") = some ⟨some (-2), some (-2), some (-2)⟩ ∧
    parseOutcomeTitle (some "5°C or below") = some ⟨none, some 5, some 5⟩ ∧
    parseOutcomeTitle (some "between -2 and 0") = some ⟨some (-2), some 0, some (-1)⟩ := by
  decide

/-- C5 counterexample: the label "3-5" consists of two integers separated by
a dash, yet parsing returns null rather than the range 3..5, because the
range regex requires a °C marker (the letter c) after each integer. -/
theorem C5_counterexample : parseOutcomeTitle (some "3-5") = none := by
  decide

/-- C3 counterexample: with two buckets both parsing to the exact value -2,
the matcher returns the second-encountered bucket, not the first: the loop
overwrites its exact slot on every exact match. -/
theorem C3_counterexample :
    isExactFor (-2) dupFirst = true ∧ isExactFor (-2) dupSecond = true ∧
    findOutcomeForValue dupBuckets (-2) = some dupSecond ∧
    findOutcomeForValue dupBuckets (-2) ≠ some dupFirst := by
  decide

/-- The loop body acts independently on the exact slot, the
(bestRange, bestRangeWidth) pair and the boundary slot, because each parsed
bucket falls in exactly one of the three classifications. -/
theorem findStep_decomp (v : ℤ) (e b : Option Outcome) (r : Option (Outcome × ℤ))
    (o : Outcome) :
    findStep v ⟨e, r.map Prod.fst, r.map Prod.snd, b⟩ o =
      ⟨stepE v e o, (stepR v r o).map Prod.fst, (stepR v r o).map Prod.snd, stepB v b o⟩ := by
  cases hp : parseOutcomeTitle o.title with
  | none =>
    simp [findStep, stepE, stepR, stepB, isExactFor, isRangeFor, isBoundaryFor, hp]
    cases b <;> rfl
  | some p =>
    obtain ⟨plo, pup, prep⟩ := p
    cases plo with
    | none =>
      cases pup with
      | none =>
        simp [findStep, stepE, stepR, stepB, isExactFor, isRangeFor, isBoundaryFor, hp]
        cases b <;> rfl
      | some hi =>
        by_cases hv : v ≤ hi
        · simp [findStep, stepE, stepR, stepB, isExactFor, isRangeFor, isBoundaryFor, hp, hv]
          cases b <;> rfl
        · simp [findStep, stepE, stepR, stepB, isExactFor, isRangeFor, isBoundaryFor, hp, hv]
          cases b <;> rfl
    | some lo =>
      cases pup with
      | none =>
        by_cases hv : lo ≤ v
        · simp [findStep, stepE, stepR, stepB, isExactFor, isRangeFor, isBoundaryFor, hp, hv]
          cases b <;> rfl
        · simp [findStep, stepE, stepR, stepB, isExactFor, isRangeFor, isBoundaryFor, hp, hv]
          cases b <;> rfl
      | some hi =>
        by_cases hx : lo = v ∧ hi = v
        · simp [findStep, stepE, stepR, stepB, isExactFor, isRangeFor, isBoundaryFor, hp, hx]
          cases b <;> rfl
        · by_cases hr : lo ≤ v ∧ v ≤ hi
          · cases r with
            | none =>
              simp [findStep, stepE, stepR, stepB, isExactFor, isRangeFor, isBoundaryFor,
                widthOf, hp, hx, hr]
              cases b <;> rfl
            | some pr =>
              obtain ⟨o', w'⟩ := pr
              by_cases hw : hi - lo < w'
              · simp [findStep, stepE, stepR, stepB, isExactFor, isRangeFor, isBoundaryFor,
                  widthOf, hp, hx, hr, hw]
                cases b <;> rfl
              · simp [findStep, stepE, stepR, stepB, isExactFor, isRangeFor, isBoundaryFor,
                  widthOf, hp, hx, hr, hw]
                cases b <;> rfl
          · simp [findStep, stepE, stepR, stepB, isExactFor, isRangeFor, isBoundaryFor,
              hp, hx, hr]
            cases b <;> rfl

/-- The findOutcomeForValue fold decomposes into the three projections. -/
theorem foldl_findStep (v : ℤ) (l : List Outcome) (e b : Option Outcome)
    (r : Option (Outcome × ℤ)) :
    l.foldl (findStep v) ⟨e, r.map Prod.fst, r.map Prod.snd, b⟩ =
      ⟨l.foldl (stepE v) e, (l.foldl (stepR v) r).map Prod.fst,
       (l.foldl (stepR v) r).map Prod.snd, l.foldl (stepB v) b⟩ := by
  induction l generalizing e b r with
  | nil => rfl
  | cons o l ih =>
    rw [List.foldl_cons, findStep_decomp, ih]
    simp [List.foldl_cons]

/-- The exact slot keeps the last exact match of the processed prefix. -/
theorem foldl_stepE_eq (v : ℤ) (l : List Outcome) (e : Option Outcome) :
    l.foldl (stepE v) e = (l.reverse.find? (isExactFor v)).or e := by
  induction l generalizing e with
  | nil => simp
  | cons o l ih =>
    have h : stepE v e o = (List.find? (isExactFor v) [o]).or e := by
      cases hx : isExactFor v o <;>
        simp [stepE, List.find?_cons_of_pos, List.find?_cons_of_neg, hx]
    rw [List.foldl_cons, ih, List.reverse_cons, List.find?_append, Option.or_assoc, h]

/-- The boundary slot keeps the first boundary match of the prefix. -/
theorem foldl_stepB_eq (v : ℤ) (l : List Outcome) (b : Option Outcome) :
    l.foldl (stepB v) b = b.or (l.find? (isBoundaryFor v)) := by
  induction l generalizing b with
  | nil => simp [Option.or_none]
  | cons o l ih =>
    have h : stepB v b o = b.or (if isBoundaryFor v o then some o else none) := by
      cases b <;> rfl
    rw [List.foldl_cons, ih, h, Option.or_assoc]
    cases hx : isBoundaryFor v o <;>
      simp [List.find?_cons_of_pos, List.find?_cons_of_neg, hx]

/-- findOutcomeForValue in terms of the three projections. -/
theorem find_eq_or (l : List Outcome) (v : ℤ) :
    findOutcomeForValue l v =
      (l.reverse.find? (isExactFor v)).or
        (((l.foldl (stepR v) none).map Prod.fst).or (l.find? (isBoundaryFor v))) := by
  show (l.foldl (findStep v) ⟨none, none, none, none⟩).exact.orElse _ = _
  have h0 : (⟨none, none, none, none⟩ : FindState) =
      ⟨none, (none : Option (Outcome × ℤ)).map Prod.fst,
       (none : Option (Outcome × ℤ)).map Prod.snd, none⟩ := rfl
  rw [h0, foldl_findStep, foldl_stepE_eq, foldl_stepB_eq]
  simp [Option.or_eq_orElse, Option.or_none]

/-- Characterization of the range accumulator: when it holds (o, w), o is a
containing range of width w, every strictly earlier containing range is
strictly wider (strict < in the loop means ties keep the earlier bucket),
and every later containing range is at least as wide; when it is none there
is no containing range. -/
theorem stepR_not_range {v : ℤ} {x : Outcome} (hx : isRangeFor v x = false)
    (a : Option (Outcome × ℤ)) : stepR v a x = a := by
  rw [stepR.eq_def, hx]
  simp

/-- stepR on an empty accumulator records the first containing range. -/
theorem stepR_none_range {v : ℤ} {x : Outcome} (hx : isRangeFor v x = true) :
    stepR v none x = some (x, widthOf x) := by
  rw [stepR.eq_def, hx]
  simp

/-- stepR replaces the accumulator on a strictly narrower range. -/
theorem stepR_some_lt {v : ℤ} {x o₀ : Outcome} {w₀ : ℤ} (hx : isRangeFor v x = true)
    (hlt : widthOf x < w₀) : stepR v (some (o₀, w₀)) x = some (x, widthOf x) := by
  rw [stepR.eq_def, hx]
  simp [hlt]

/-- stepR keeps the accumulator when the new range is not narrower. -/
theorem stepR_some_ge {v : ℤ} {x o₀ : Outcome} {w₀ : ℤ} (hx : isRangeFor v x = true)
    (hge : ¬widthOf x < w₀) : stepR v (some (o₀, w₀)) x = some (o₀, w₀) := by
  rw [stepR.eq_def, hx]
  simp [hge]

/-- Characterization of the range accumulator: when it holds (o, w), o is a
containing range of width w, every strictly earlier containing range is
strictly wider (strict < in the loop means ties keep the earlier bucket),
and every later containing range is at least as wide; when it is none there
is no containing range. -/
theorem foldl_stepR_spec (v : ℤ) (l : List Outcome) :
    (l.foldl (stepR v) none = none → ∀ o ∈ l, isRangeFor v o = false) ∧
    (∀ o w, l.foldl (stepR v) none = some (o, w) →
      w = widthOf o ∧ isRangeFor v o = true ∧
      ∃ l1 l2, l = l1 ++ o :: l2 ∧
        (∀ o' ∈ l1, isRangeFor v o' = true → w < widthOf o') ∧
        (∀ o' ∈ l2, isRangeFor v o' = true → w ≤ widthOf o')) := by
  induction l using List.reverseRecOn with
  | nil =>
    refine ⟨fun _ o h => absurd h (List.not_mem_nil o), fun o w h => by simp at h⟩
  | append_singleton l x ih =>
    rw [List.foldl_append, List.foldl_cons, List.foldl_nil]
    cases hacc : l.foldl (stepR v) none with
    | none =>
      have hnor : ∀ o ∈ l, isRangeFor v o = false := ih.1 hacc
      cases hx : isRangeFor v x with
      | false =>
        rw [stepR_not_range hx]
        constructor
        · intro _ o ho
          rcases List.mem_append.1 ho with h | h
          · exact hnor o h
          · rw [List.mem_singleton.1 h]; exact hx
        · intro o w h
          cases h
      | true =>
        rw [stepR_none_range hx]
        constructor
        · intro h
          cases h
        · intro o w h
          injection h with h'
          injection h' with h1 h2
          subst h1; subst h2
          refine ⟨rfl, hx, l, [], rfl, ?_, fun o' h _ => absurd h (List.not_mem_nil o')⟩
          intro o' h hr
          rw [hnor o' h] at hr
          cases hr
    | some pr =>
      obtain ⟨o₀, w₀⟩ := pr
      obtain ⟨hw₀, hr₀, l1, l2, heq, h1, h2⟩ := ih.2 o₀ w₀ hacc
      have hmem : ∀ o' ∈ l, isRangeFor v o' = true → w₀ ≤ widthOf o' := by
        intro o' ho' hro'
        rw [heq] at ho'
        rcases List.mem_append.1 ho' with h | h
        · exact le_of_lt (h1 o' h hro')
        · rcases List.mem_cons.1 h with h | h
          · rw [h, ← hw₀]
          · exact h2 o' h hro'
      cases hx : isRangeFor v x with
      | false =>
        rw [stepR_not_range hx]
        constructor
        · intro h
          cases h
        · intro o w h
          injection h with h'
          injection h' with h1 h2
          subst h1; subst h2
          refine ⟨hw₀, hr₀, l1, l2 ++ [x], by rw [heq]; simp, h1, ?_⟩
          intro o' ho' hro'
          rcases List.mem_append.1 ho' with h | h
          · exact h2 o' h hro'
          · rw [List.mem_singleton.1 h] at hro'
            rw [hro'] at hx
            cases hx
      | true =>
        by_cases hlt : widthOf x < w₀
        · rw [stepR_some_lt hx hlt]
          constructor
          · intro h
            cases h
          · intro o w h
            injection h with h'
            injection h' with h1 h2
            subst h1; subst h2
            refine ⟨rfl, hx, l, [], rfl, ?_,
              fun o' h _ => absurd h (List.not_mem_nil o')⟩
            intro o' ho' hro'
            exact lt_of_lt_of_le hlt (hmem o' ho' hro')
        · rw [stepR_some_ge hx hlt]
          constructor
          · intro h
            cases h
          · intro o w h
            injection h with h'
            injection h' with h1 h2
            subst h1; subst h2
            refine ⟨hw₀, hr₀, l1, l2 ++ [x], by rw [heq]; simp, h1, ?_⟩
            intro o' ho' hro'
            rcases List.mem_append.1 ho' with h | h
            · exact h2 o' h hro'
            · rw [List.mem_singleton.1 h]
              omega

/-- An exact match admits the value in the sense of outcomeMatchesValue. -/
theorem matches_of_isExactFor {v : ℤ} {o : Outcome} (h : isExactFor v o = true) :
    outcomeMatchesValue o.title v = true := by
  unfold isExactFor at h
  unfold outcomeMatchesValue
  cases hp : parseOutcomeTitle o.title with
  | none => rw [hp] at h; cases h
  | some p =>
    rw [hp] at h
    obtain ⟨plo, pup, prep⟩ := p
    cases plo <;> cases pup <;> simp_all

/-- A containing range admits the value in the sense of outcomeMatchesValue. -/
theorem matches_of_isRangeFor {v : ℤ} {o : Outcome} (h : isRangeFor v o = true) :
    outcomeMatchesValue o.title v = true := by
  unfold isRangeFor at h
  unfold outcomeMatchesValue
  cases hp : parseOutcomeTitle o.title with
  | none => rw [hp] at h; cases h
  | some p =>
    rw [hp] at h
    obtain ⟨plo, pup, prep⟩ := p
    cases plo <;> cases pup <;> simp_all

/-- A satisfied open-ended bucket admits the value. -/
theorem matches_of_isBoundaryFor {v : ℤ} {o : Outcome} (h : isBoundaryFor v o = true) :
    outcomeMatchesValue o.title v = true := by
  unfold isBoundaryFor at h
  unfold outcomeMatchesValue
  cases hp : parseOutcomeTitle o.title with
  | none => rw [hp] at h; cases h
  | some p =>
    rw [hp] at h
    obtain ⟨plo, pup, prep⟩ := p
    cases plo <;> cases pup <;> simp_all

/-- C1 claim: bucket matching follows the priority order exact, then
containing range, then satisfied open-ended bucket, then null; and on the
spec scenario buckets (exact -2, range -1..1, open-above 2) value 0 matches
the range bucket, value 5 the open bucket, and value -10 nothing. -/
theorem C1_matching_priority :
    (∀ (l : List Outcome) (v : ℤ),
      ((∃ o ∈ l, isExactFor v o = true) →
        ∃ o, findOutcomeForValue l v = some o ∧ isExactFor v o = true) ∧
      ((∀ o ∈ l, isExactFor v o = false) → (∃ o ∈ l, isRangeFor v o = true) →
        ∃ o, findOutcomeForValue l v = some o ∧ isRangeFor v o = true) ∧
      ((∀ o ∈ l, isExactFor v o = false) → (∀ o ∈ l, isRangeFor v o = false) →
        (∃ o ∈ l, isBoundaryFor v o = true) →
        ∃ o, findOutcomeForValue l v = some o ∧ isBoundaryFor v o = true) ∧
      ((∀ o ∈ l, isExactFor v o = false) → (∀ o ∈ l, isRangeFor v o = false) →
        (∀ o ∈ l, isBoundaryFor v o = false) → findOutcomeForValue l v = none)) ∧
    findOutcomeForValue exBuckets 0 = some exRange ∧
    findOutcomeForValue exBuckets 5 = some exOpen ∧
    findOutcomeForValue exBuckets (-10) = none := by
  refine ⟨?_, by decide, by decide, by decide⟩
  intro l v
  refine ⟨?_, ?_, ?_, ?_⟩
  · intro ⟨o, ho, hx⟩
    have hs : (l.reverse.find? (isExactFor v)).isSome := by
      rw [List.find?_isSome]
      exact ⟨o, List.mem_reverse.2 ho, hx⟩
    obtain ⟨o', ho'⟩ := Option.isSome_iff_exists.1 hs
    refine ⟨o', ?_, List.find?_some ho'⟩
    rw [find_eq_or, ho']
    rfl
  · intro hne ⟨o, ho, hr⟩
    have hnone : l.reverse.find? (isExactFor v) = none := by
      rw [List.find?_eq_none]
      intro x hx
      simp [hne x (List.mem_reverse.1 hx)]
    cases hacc : l.foldl (stepR v) none with
    | none => exact absurd hr (by rw [(foldl_stepR_spec v l).1 hacc o ho]; simp)
    | some pr =>
      obtain ⟨o', w'⟩ := pr
      obtain ⟨_, hro', _⟩ := (foldl_stepR_spec v l).2 o' w' hacc
      refine ⟨o', ?_, hro'⟩
      rw [find_eq_or, hnone, hacc]
      rfl
  · intro _ hnr ⟨o, ho, hb⟩
    have hnone : l.reverse.find? (isExactFor v) = none := by
      rw [List.find?_eq_none]
      intro x hx
      simp [‹∀ o ∈ l, isExactFor v o = false› x (List.mem_reverse.1 hx)]
    have hracc : l.foldl (stepR v) none = none := by
      cases hacc : l.foldl (stepR v) none with
      | none => rfl
      | some pr =>
        obtain ⟨o', w'⟩ := pr
        obtain ⟨_, hro', l1, l2, heq, _, _⟩ := (foldl_stepR_spec v l).2 o' w' hacc
        have : o' ∈ l := by rw [heq]; simp
        rw [hnr o' this] at hro'
        cases hro'
    have hs : (l.find? (isBoundaryFor v)).isSome := by
      rw [List.find?_isSome]
      exact ⟨o, ho, hb⟩
    obtain ⟨o', ho'⟩ := Option.isSome_iff_exists.1 hs
    refine ⟨o', ?_, List.find?_some ho'⟩
    rw [find_eq_or, hnone, hracc, ho']
    rfl
  · intro hne hnr hnb
    have hnone : l.reverse.find? (isExactFor v) = none := by
      rw [List.find?_eq_none]
      intro x hx
      simp [hne x (List.mem_reverse.1 hx)]
    have hracc : l.foldl (stepR v) none = none := by
      cases hacc : l.foldl (stepR v) none with
      | none => rfl
      | some pr =>
        obtain ⟨o', w'⟩ := pr
        obtain ⟨_, hro', l1, l2, heq, _, _⟩ := (foldl_stepR_spec v l).2 o' w' hacc
        have : o' ∈ l := by rw [heq]; simp
        rw [hnr o' this] at hro'
        cases hro'
    have hbnone : l.find? (isBoundaryFor v) = none := by
      rw [List.find?_eq_none]
      intro x hx
      simp [hnb x hx]
    rw [find_eq_or, hnone, hracc, hbnone]
    rfl

/-- C1 witness: the exact-priority conjunct applied to the scenario buckets
at value -2, the range conjunct at value 0, and the boundary conjunct at
value 5, with all hypotheses discharged by evaluation. -/
theorem C1_matching_priority_witness :
    (∃ o, findOutcomeForValue exBuckets (-2) = some o ∧ isExactFor (-2) o = true) ∧
    (∃ o, findOutcomeForValue exBuckets 0 = some o ∧ isRangeFor 0 o = true) ∧
    (∃ o, findOutcomeForValue exBuckets 5 = some o ∧ isBoundaryFor 5 o = true) ∧
    findOutcomeForValue exBuckets (-10) = none :=
  ⟨(C1_matching_priority.1 exBuckets (-2)).1 ⟨exExact, by decide, by decide⟩,
   (C1_matching_priority.1 exBuckets 0).2.1 (by decide) ⟨exRange, by decide, by decide⟩,
   (C1_matching_priority.1 exBuckets 5).2.2.1 (by decide) (by decide)
     ⟨exOpen, by decide, by decide⟩,
   (C1_matching_priority.1 exBuckets (-10)).2.2.2 (by decide) (by decide) (by decide)⟩

/-- C3 amended claim: when at least one bucket parses to the exact value v,
the matcher returns the last exact bucket in input order (the loop
overwrites its exact slot on every exact match). -/
theorem C3_amended_last_exact_wins (l : List Outcome) (v : ℤ)
    (h : ∃ o ∈ l, isExactFor v o = true) :
    findOutcomeForValue l v = l.reverse.find? (isExactFor v) := by
  obtain ⟨o, ho, hx⟩ := h
  have hs : (l.reverse.find? (isExactFor v)).isSome := by
    rw [List.find?_isSome]
    exact ⟨o, List.mem_reverse.2 ho, hx⟩
  obtain ⟨o', ho'⟩ := Option.isSome_iff_exists.1 hs
  rw [find_eq_or, ho']
  rfl

/-- C3 amended witness: on the duplicate-exact collection the matcher result
equals the first exact match of the reversed list, namely the second bucket. -/
theorem C3_amended_last_exact_wins_witness :
    (∃ o ∈ dupBuckets, isExactFor (-2) o = true) ∧
    findOutcomeForValue dupBuckets (-2) = dupBuckets.reverse.find? (isExactFor (-2)) ∧
    dupBuckets.reverse.find? (isExactFor (-2)) = some dupSecond :=
  ⟨⟨dupFirst, by decide, by decide⟩,
   C3_amended_last_exact_wins dupBuckets (-2) ⟨dupFirst, by decide, by decide⟩,
   by decide⟩

/-- C4 claim: with no exact bucket for v, among the containing ranges the
matcher returns one of minimal width upper - lower, and every strictly
earlier containing range is strictly wider, so on ties the first-encountered
range wins. -/
theorem C4_narrowest_range_wins (l : List Outcome) (v : ℤ)
    (hne : ∀ o ∈ l, isExactFor v o = false)
    (hex : ∃ o ∈ l, isRangeFor v o = true) :
    ∃ o l1 l2, findOutcomeForValue l v = some o ∧ isRangeFor v o = true ∧
      l = l1 ++ o :: l2 ∧
      (∀ o' ∈ l, isRangeFor v o' = true → widthOf o ≤ widthOf o') ∧
      (∀ o' ∈ l1, isRangeFor v o' = true → widthOf o < widthOf o') := by
  obtain ⟨o, ho, hr⟩ := hex
  have hnone : l.reverse.find? (isExactFor v) = none := by
    rw [List.find?_eq_none]
    intro x hx
    simp [hne x (List.mem_reverse.1 hx)]
  cases hacc : l.foldl (stepR v) none with
  | none => exact absurd hr (by rw [(foldl_stepR_spec v l).1 hacc o ho]; simp)
  | some pr =>
    obtain ⟨o', w'⟩ := pr
    obtain ⟨hw', hro', l1, l2, heq, h1, h2⟩ := (foldl_stepR_spec v l).2 o' w' hacc
    subst hw'
    refine ⟨o', l1, l2, ?_, hro', heq, ?_, h1⟩
    · rw [find_eq_or, hnone, hacc]
      rfl
    · intro o'' ho'' hro''
      rw [heq] at ho''
      rcases List.mem_append.1 ho'' with h | h
      · exact le_of_lt (h1 o'' h hro'')
      · rcases List.mem_cons.1 h with h | h
        · rw [h]
        · exact h2 o'' h hro''

/-- C4 witness: on a wide range followed by a narrower containing range, at
value 1 the matcher returns the narrow one, with the wide one strictly wider. -/
theorem C4_narrowest_range_wins_witness :
    (∀ o ∈ widthBuckets, isExactFor 1 o = false) ∧
    (∃ o ∈ widthBuckets, isRangeFor 1 o = true) ∧
    ∃ o l1 l2, findOutcomeForValue widthBuckets 1 = some o ∧ isRangeFor 1 o = true ∧
      widthBuckets = l1 ++ o :: l2 ∧
      (∀ o' ∈ widthBuckets, isRangeFor 1 o' = true → widthOf o ≤ widthOf o') ∧
      (∀ o' ∈ l1, isRangeFor 1 o' = true → widthOf o < widthOf o') :=
  ⟨by decide, ⟨widthBuckets[1], by decide, by decide⟩,
   C4_narrowest_range_wins widthBuckets 1 (by decide)
     ⟨widthBuckets[1], by decide, by decide⟩⟩

/-- C8 claim: the matcher returns null or an element of its input whose
title parses to bounds admitting the value (outcomeMatchesValue embodies
exactly the both-bounds, lower-only and upper-only admission conditions). -/
theorem C8_matcher_soundness (l : List Outcome) (v : ℤ) :
    findOutcomeForValue l v = none ∨
      ∃ o, findOutcomeForValue l v = some o ∧ o ∈ l ∧
        outcomeMatchesValue o.title v = true := by
  rw [find_eq_or]
  cases he : l.reverse.find? (isExactFor v) with
  | some o =>
    right
    refine ⟨o, rfl, List.mem_reverse.1 (List.mem_of_find?_eq_some he), ?_⟩
    exact matches_of_isExactFor (List.find?_some he)
  | none =>
    cases hacc : l.foldl (stepR v) none with
    | some pr =>
      obtain ⟨o, w⟩ := pr
      obtain ⟨_, hro, l1, l2, heq, _, _⟩ := (foldl_stepR_spec v l).2 o w hacc
      right
      refine ⟨o, rfl, by rw [heq]; simp, matches_of_isRangeFor hro⟩
    | none =>
      cases hb : l.find? (isBoundaryFor v) with
      | some o =>
        right
        exact ⟨o, rfl, List.mem_of_find?_eq_some hb,
          matches_of_isBoundaryFor (List.find?_some hb)⟩
      | none => left; rfl

/-- ofNatAux unpacks to its code point. -/
theorem toNat_ofNatAux (n : ℕ) (h : n.isValidChar) : (Char.ofNatAux n h).toNat = n := rfl

/-- Lowercasing never creates or destroys a digit. -/
theorem jsDigit_jsToLower (c : Char) : jsDigit (jsToLower c) = jsDigit c := by
  unfold jsToLower
  split
  · simp only [jsDigit, toNat_ofNatAux]
    have := ‹65 ≤ c.toNat ∧ c.toNat ≤ 90›
    simp only [decide_eq_decide]
    omega
  · rfl

/-- A successful integer capture needs a digit in its input. -/
theorem capInt_digit {s : List Char} {y : ℤ × List Char} (h : capInt s = some y) :
    ∃ c ∈ s, jsDigit c = true := by
  cases s with
  | nil => cases h
  | cons c rest =>
    by_cases hc : c = '-'
    · by_cases hds : (rest.takeWhile jsDigit).isEmpty
      · simp [capInt, hc, hds] at h
      · have hne : rest.takeWhile jsDigit ≠ [] := by
          intro hnil
          rw [hnil] at hds
          exact hds rfl
        obtain ⟨d, hd⟩ := List.exists_mem_of_ne_nil _ hne
        exact ⟨d, List.mem_cons_of_mem c ((List.takeWhile_sublist jsDigit).subset hd),
          List.mem_takeWhile_imp hd⟩
    · by_cases hds : ((c :: rest).takeWhile jsDigit).isEmpty
      · simp [capInt, hc, hds] at h
      · have hne : (c :: rest).takeWhile jsDigit ≠ [] := by
          intro hnil
          rw [hnil] at hds
          exact hds rfl
        obtain ⟨d, hd⟩ := List.exists_mem_of_ne_nil _ hne
        exact ⟨d, (List.takeWhile_sublist jsDigit).subset hd, List.mem_takeWhile_imp hd⟩

/-- Literal matching only removes a prefix. -/
theorem expectLit_subset {p s r : List Char} (h : expectLit p s = some r) :
    ∀ x ∈ r, x ∈ s := by
  induction p generalizing s with
  | nil =>
    unfold expectLit at h
    cases h
    exact fun x hx => hx
  | cons c p ih =>
    cases s with
    | nil => cases h
    | cons x s =>
      unfold expectLit at h
      split at h
      · exact fun y hy => List.mem_cons_of_mem x (ih h y hy)
      · cases h

/-- Mandatory-space matching only removes a prefix. -/
theorem plusSpacesMax_subset {s r : List Char} (h : plusSpacesMax s = some r) :
    ∀ x ∈ r, x ∈ s := by
  cases s with
  | nil => cases h
  | cons c rest =>
    by_cases hsp : jsSpace c
    · simp only [plusSpacesMax, if_pos hsp, Option.some.injEq] at h
      subst h
      exact fun x hx =>
        List.mem_cons_of_mem c ((List.dropWhile_sublist jsSpace).subset hx)
    · simp [plusSpacesMax, hsp] at h

/-- R1 can only match inputs containing a digit. -/
theorem matchR1At_digit {s : List Char} {y : ℤ × ℤ} (h : matchR1At s = some y) :
    ∃ c ∈ s, jsDigit c = true := by
  unfold matchR1At at h
  cases hc : capInt s with
  | none => simp only [hc] at h; exact Option.noConfusion h
  | some z => exact capInt_digit hc

/-- S can only match inputs containing a digit. -/
theorem matchSAt_digit {s : List Char} {y : ℤ} (h : matchSAt s = some y) :
    ∃ c ∈ s, jsDigit c = true := by
  unfold matchSAt at h
  cases hc : capInt s with
  | none => simp only [hc] at h; exact Option.noConfusion h
  | some z => exact capInt_digit hc

/-- R2 can only match inputs containing a digit. -/
theorem matchR2At_digit {s : List Char} {y : ℤ × ℤ} (h : matchR2At s = some y) :
    ∃ c ∈ s, jsDigit c = true := by
  unfold matchR2At at h
  cases hlit : expectLit ['b', 'e', 't', 'w', 'e', 'e', 'n'] s with
  | none => simp only [hlit] at h; exact Option.noConfusion h
  | some s1 =>
    simp only [hlit] at h
    cases hsp : plusSpacesMax s1 with
    | none => simp only [hsp] at h; exact Option.noConfusion h
    | some s2 =>
      simp only [hsp] at h
      cases hc : capInt s2 with
      | none => simp only [hc] at h; exact Option.noConfusion h
      | some z =>
        obtain ⟨d, hd, hdig⟩ := capInt_digit hc
        exact ⟨d, expectLit_subset hlit d (plusSpacesMax_subset hsp d hd), hdig⟩

/-- A scan fails when the anchored matcher fails on every character set
avoiding P and the whole input avoids P. -/
theorem scanMatch_none_of {α : Type} (f : List Char → Option α) (P : Char → Bool)
    (hf : ∀ t, (∀ x ∈ t, P x = false) → f t = none) :
    ∀ s, (∀ x ∈ s, P x = false) → scanMatch f s = none := by
  intro s
  induction s with
  | nil => intro h; exact hf [] h
  | cons c r ih =>
    intro h
    show (f (c :: r)).orElse _ = none
    rw [hf (c :: r) h]
    exact ih fun x hx => h x (List.mem_cons_of_mem c hx)

/-- A title without digits parses to null: every matcher needs a digit. -/
theorem parse_none_of_no_digit (t : String) (h : ∀ c ∈ t.data, jsDigit c = false) :
    parseOutcomeTitle (some t) = none := by
  show (if t.data = [] then none else parseTitleChars (t.data.map jsToLower)) = none
  by_cases ht : t.data = []
  · rw [if_pos ht]
  · rw [if_neg ht]
    have hlow : ∀ x ∈ t.data.map jsToLower, jsDigit x = false := by
      intro x hx
      obtain ⟨c, hc, rfl⟩ := List.mem_map.1 hx
      rw [jsDigit_jsToLower]
      exact h c hc
    have h1 : scanMatch matchR1At (t.data.map jsToLower) = none :=
      scanMatch_none_of matchR1At jsDigit
        (fun u hu => by
          cases hm : matchR1At u with
          | none => rfl
          | some y =>
            obtain ⟨d, hd, hdig⟩ := matchR1At_digit hm
            rw [hu d hd] at hdig; cases hdig) _ hlow
    have h2 : scanMatch matchR2At (t.data.map jsToLower) = none :=
      scanMatch_none_of matchR2At jsDigit
        (fun u hu => by
          cases hm : matchR2At u with
          | none => rfl
          | some y =>
            obtain ⟨d, hd, hdig⟩ := matchR2At_digit hm
            rw [hu d hd] at hdig; cases hdig) _ hlow
    have h3 : scanMatch matchSAt (t.data.map jsToLower) = none :=
      scanMatch_none_of matchSAt jsDigit
        (fun u hu => by
          cases hm : matchSAt u with
          | none => rfl
          | some y =>
            obtain ⟨d, hd, hdig⟩ := matchSAt_digit hm
            rw [hu d hd] at hdig; cases hdig) _ hlow
    unfold parseTitleChars
    rw [h1, h2, h3]
    rfl

/-- A bucket whose title does not parse leaves the loop state unchanged. -/
theorem findStep_unparseable {v : ℤ} {o : Outcome} (h : parseOutcomeTitle o.title = none)
    (st : FindState) : findStep v st o = st := by
  unfold findStep
  rw [h]

/-- Unparseable buckets are invisible to the fold. -/
theorem foldl_filter_parseable (v : ℤ) (l : List Outcome) (st : FindState) :
    l.foldl (findStep v) st =
      (l.filter fun o => (parseOutcomeTitle o.title).isSome).foldl (findStep v) st := by
  induction l generalizing st with
  | nil => rfl
  | cons o l ih =>
    cases hp : parseOutcomeTitle o.title with
    | none =>
      rw [List.foldl_cons, findStep_unparseable hp,
        List.filter_cons_of_neg (by simp [hp])]
      exact ih st
    | some p =>
      rw [List.foldl_cons, List.filter_cons_of_pos (by simp [hp]), List.foldl_cons]
      exact ih (findStep v st o)

/-- C7 claim: parsing and matching are total.  Unparseable labels (in
particular any label with no digit) are silently excluded: filtering them
out does not change the match result; and when no bucket admits the value
the result is null, never an error. -/
theorem C7_absence_not_error :
    (∀ (l : List Outcome) (v : ℤ), findOutcomeForValue l v =
      findOutcomeForValue (l.filter fun o => (parseOutcomeTitle o.title).isSome) v) ∧
    (∀ (l : List Outcome) (v : ℤ),
      (∀ o ∈ l, outcomeMatchesValue o.title v = false) → findOutcomeForValue l v = none) ∧
    (∀ t : String, (∀ c ∈ t.data, jsDigit c = false) →
      parseOutcomeTitle (some t) = none) := by
  refine ⟨?_, ?_, parse_none_of_no_digit⟩
  · intro l v
    unfold findOutcomeForValue
    rw [foldl_filter_parseable]
  · intro l v h
    rcases C8_matcher_soundness l v with hn | ⟨o, _, ho, hm⟩
    · exact hn
    · rw [h o ho] at hm
      cases hm

/-- C7 witness: a collection with one digit-free label and one non-matching
bucket yields null at value 0, with the digit-free label parsing to null. -/
theorem C7_absence_not_error_witness :
    (∀ o ∈ noMatchBuckets, outcomeMatchesValue o.title 0 = false) ∧
    findOutcomeForValue noMatchBuckets 0 = none ∧
    (∀ c ∈ "sunny".data, jsDigit c = false) ∧
    parseOutcomeTitle (some "sunny") = none :=
  ⟨by decide, C7_absence_not_error.2.1 noMatchBuckets 0 (by decide), by decide,
   C7_absence_not_error.2.2 "sunny" (by decide)⟩

/-- C9 claim: every successful parse has a representative and at least one
bound; with both bounds present lower ≤ upper (the parser sorts the two
captured integers) and the representative is the midpoint (for an exact
bucket n = (n + n) / 2); with one bound the representative is that bound. -/
theorem C9_parsed_outcome_wellformed (t : Option String) (p : ParsedOutcome)
    (h : parseOutcomeTitle t = some p) :
    (p.repr ≠ none ∧ (p.lower ≠ none ∨ p.upper ≠ none)) ∧
    (∀ lo hi, p.lower = some lo → p.upper = some hi →
      lo ≤ hi ∧ p.repr = some (((lo : ℚ) + (hi : ℚ)) / 2)) ∧
    (∀ lo, p.lower = some lo → p.upper = none → p.repr = some (lo : ℚ)) ∧
    (∀ hi, p.upper = some hi → p.lower = none → p.repr = some (hi : ℚ)) := by
  cases t with
  | none => cases h
  | some s =>
    have h' : (if s.data = [] then none
        else parseTitleChars (s.data.map jsToLower)) = some p := h
    by_cases hd : s.data = []
    · rw [if_pos hd] at h'
      cases h'
    · rw [if_neg hd] at h'
      unfold parseTitleChars at h'
      cases hr : (scanMatch matchR1At (s.data.map jsToLower)).orElse
          fun _ => scanMatch matchR2At (s.data.map jsToLower) with
      | some ab =>
        obtain ⟨a, b⟩ := ab
        simp only [hr] at h'
        injection h' with h'
        subst h'
        by_cases hab : a ≤ b
        · refine ⟨⟨by simp, by simp⟩, ?_, by simp, by simp⟩
          intro lo hi hlo hhi
          simp only [if_pos hab] at hlo hhi ⊢
          injection hlo with hlo
          injection hhi with hhi
          subst hlo; subst hhi
          exact ⟨hab, by simp [if_pos hab]⟩
        · refine ⟨⟨by simp, by simp⟩, ?_, by simp, by simp⟩
          intro lo hi hlo hhi
          simp only [if_neg hab] at hlo hhi ⊢
          injection hlo with hlo
          injection hhi with hhi
          subst hlo; subst hhi
          exact ⟨by omega, by simp [if_neg hab]⟩
      | none =>
        simp only [hr] at h'
        cases hs : scanMatch matchSAt (s.data.map jsToLower) with
        | none => simp only [hs] at h'; exact Option.noConfusion h'
        | some n =>
          simp only [hs] at h'
          by_cases h1 : containsPat "or below".data (s.data.map jsToLower) = true ∨
              containsPat "or lower".data (s.data.map jsToLower) = true
          · rw [if_pos (by simpa using h1)] at h'
            injection h' with h'
            subst h'
            exact ⟨⟨by simp, by simp⟩, fun lo hi hlo _ => absurd hlo (by simp),
              fun lo hlo _ => absurd hlo (by simp), fun hi hhi _ => by
                injection hhi with hhi; subst hhi; rfl⟩
          · rw [if_neg (by simpa using h1)] at h'
            by_cases h2 : containsPat "or higher".data (s.data.map jsToLower) = true ∨
                containsPat "or above".data (s.data.map jsToLower) = true
            · rw [if_pos (by simpa using h2)] at h'
              injection h' with h'
              subst h'
              exact ⟨⟨by simp, by simp⟩, fun lo hi _ hhi => absurd hhi (by simp),
                fun lo hlo _ => by injection hlo with hlo; subst hlo; rfl,
                fun hi hhi => by simp at hhi⟩
            · rw [if_neg (by simpa using h2)] at h'
              injection h' with h'
              subst h'
              refine ⟨⟨by simp, by simp⟩, ?_, by simp, by simp⟩
              intro lo hi hlo hhi
              injection hlo with hlo
              injection hhi with hhi
              subst hlo; subst hhi
              refine ⟨le_refl n, ?_⟩
              have hh : ((n : ℚ) + (n : ℚ)) / 2 = (n : ℚ) := by ring
              rw [hh]

unseal Rat.add Rat.mul Rat.inv in
/-- C9 witness: the parse of "5°C or below" is well-formed; its single upper
bound 5 is the representative. -/
theorem C9_parsed_outcome_wellformed_witness :
    parseOutcomeTitle (some "5°C or below") = some ⟨none, some 5, some (5 : ℚ)⟩ ∧
    (⟨none, some 5, some (5 : ℚ)⟩ : ParsedOutcome).repr = some (((5 : ℤ) : ℚ)) :=
  ⟨by decide,
   (C9_parsed_outcome_wellformed (some "5°C or below") ⟨none, some 5, some (5 : ℚ)⟩
      (by decide)).2.2.2 5 rfl rfl⟩

/-- C10 claim: on titles in which neither range regex matches anywhere, the
legacy matchesOutcome and the current outcomeMatchesValue agree. -/
theorem C10_legacy_matcher_equivalence (t : Option String) (v : ℤ)
    (h : hasRangePattern t = false) :
    matchesOutcome t v = outcomeMatchesValue t v := by
  cases t with
  | none => rfl
  | some s =>
    have h12 : scanMatch matchR1At (s.data.map jsToLower) = none ∧
        scanMatch matchR2At (s.data.map jsToLower) = none := by
      unfold hasRangePattern at h
      refine ⟨Option.not_isSome_iff_eq_none.1 fun hs => ?_,
        Option.not_isSome_iff_eq_none.1 fun hs => ?_⟩
      · simp [hs] at h
      · simp [hs] at h
    have hm : matchesOutcome (some s) v =
        (if s.data = [] then false
         else
           match scanMatch matchSAt (s.data.map jsToLower) with
           | none => false
           | some n =>
             if containsPat "or below".data (s.data.map jsToLower) ||
                 containsPat "or lower".data (s.data.map jsToLower) then decide (v ≤ n)
             else if containsPat "or higher".data (s.data.map jsToLower) ||
                 containsPat "or above".data (s.data.map jsToLower) then decide (n ≤ v)
             else decide (v = n)) := rfl
    have ho : parseOutcomeTitle (some s) =
        (if s.data = [] then none
         else parseTitleChars (s.data.map jsToLower)) := rfl
    by_cases hd : s.data = []
    · rw [hm, if_pos hd]
      unfold outcomeMatchesValue
      rw [ho, if_pos hd]
    · rw [hm, if_neg hd]
      unfold outcomeMatchesValue
      rw [ho, if_neg hd]
      unfold parseTitleChars
      rw [h12.1, h12.2]
      show _ = (match
          (match scanMatch matchSAt (s.data.map jsToLower) with
            | none => none
            | some n =>
              if containsPat "or below".data (s.data.map jsToLower) ||
                  containsPat "or lower".data (s.data.map jsToLower) then
                some ⟨none, some n, some (n : ℚ)⟩
              else if containsPat "or higher".data (s.data.map jsToLower) ||
                  containsPat "or above".data (s.data.map jsToLower) then
                some ⟨some n, none, some (n : ℚ)⟩
              else some ⟨some n, some n, some (n : ℚ)⟩ : Option ParsedOutcome) with
        | none => false
        | some p => _)
      cases hs : scanMatch matchSAt (s.data.map jsToLower) with
      | none => rfl
      | some n =>
        by_cases h1 : (containsPat "or below".data (s.data.map jsToLower) ||
            containsPat "or lower".data (s.data.map jsToLower)) = true
        · simp only [h1, if_true]
        · simp only [Bool.not_eq_true] at h1
          simp only [h1, Bool.false_eq_true, if_false]
          by_cases h2 : (containsPat "or higher".data (s.data.map jsToLower) ||
              containsPat "or above".data (s.data.map jsToLower)) = true
          · simp only [h2, if_true]
          · simp only [Bool.not_eq_true] at h2
            simp only [h2, Bool.false_eq_true, if_false]
            by_cases hv : v = n <;> simp [hv] <;> omega

/-- C10 witness: on the range-free label "5°C or below" at value 3 the two
matchers agree. -/
theorem C10_legacy_matcher_equivalence_witness :
    hasRangePattern (some "5°C or below") = false ∧
    matchesOutcome (some "5°C or below") 3 = outcomeMatchesValue (some "5°C or below") 3 :=
  ⟨by decide, C10_legacy_matcher_equivalence (some "5°C or below") 3 (by decide)⟩

/-- Code point of a rendered digit. -/
theorem digitChar10_toNat {d : ℕ} (h : d < 10) : (digitChar10 d).toNat = 48 + d := by
  interval_cases d <;> rfl

/-- Rendered digits are digits. -/
theorem jsDigit_digitChar10 {d : ℕ} (h : d < 10) : jsDigit (digitChar10 d) = true := by
  simp only [jsDigit, digitChar10_toNat h, decide_eq_true_eq]
  omega

/-- natLit is never empty. -/
theorem natLit_ne_nil (n : ℕ) : natLit n ≠ [] := by
  unfold natLit
  split
  · simp
  · simp [Nat.digits_ne_nil_iff_ne_zero, *]

/-- Every character of natLit is a digit. -/
theorem natLit_digits (n : ℕ) : ∀ c ∈ natLit n, jsDigit c = true := by
  unfold natLit
  split
  · intro c hc
    rw [List.mem_singleton.1 hc]
    decide
  · intro c hc
    obtain ⟨d, hd, rfl⟩ := List.mem_map.1 hc
    exact jsDigit_digitChar10 (Nat.digits_lt_base (by norm_num) (List.mem_reverse.1 hd))

/-- Digit character code points sit in 48..57. -/
theorem toNat_of_jsDigit {c : Char} (h : jsDigit c = true) :
    48 ≤ c.toNat ∧ c.toNat ≤ 57 := by
  simpa [jsDigit] using h

/-- The fold of parseInt over rendered digits, most significant first. -/
theorem digitsToNat_aux (ds : List ℕ) (h : ∀ d ∈ ds, d < 10) (a : ℕ) :
    ((ds.reverse.map digitChar10).foldl (fun acc c => 10 * acc + (c.toNat - 48)) a) =
      a * 10 ^ ds.length + Nat.ofDigits 10 ds := by
  induction ds generalizing a with
  | nil => simp [Nat.ofDigits]
  | cons d ds ih =>
    have hd : d < 10 := h d (List.mem_cons_self d ds)
    have hds : ∀ x ∈ ds, x < 10 := fun x hx => h x (List.mem_cons_of_mem d hx)
    rw [List.reverse_cons, List.map_append, List.foldl_append, ih hds a]
    simp only [List.map_cons, List.map_nil, List.foldl_cons, List.foldl_nil,
      Nat.ofDigits_cons, List.length_cons, digitChar10_toNat hd]
    have : 48 + d - 48 = d := by omega
    rw [this]
    ring

/-- parseInt inverts the decimal rendering. -/
theorem digitsToNat_natLit (n : ℕ) : digitsToNat (natLit n) = n := by
  unfold natLit digitsToNat
  split
  · subst ‹n = 0›
    rfl
  · rw [digitsToNat_aux (Nat.digits 10 n) (fun d hd => Nat.digits_lt_base (by norm_num) hd) 0]
    simp [Nat.ofDigits_digits]

/-- intLit starts with a character in code range 45..57 (minus or digit). -/
theorem intLit_cons (z : ℤ) : ∃ c r, intLit z = c :: r ∧ 45 ≤ c.toNat ∧ c.toNat ≤ 57 := by
  unfold intLit
  split
  · exact ⟨'-', natLit z.natAbs, rfl, by decide⟩
  · cases hn : natLit z.natAbs with
    | nil => exact absurd hn (natLit_ne_nil _)
    | cons c r =>
      have hd := natLit_digits z.natAbs c (by rw [hn]; exact List.mem_cons_self c r)
      obtain ⟨h1, h2⟩ := toNat_of_jsDigit hd
      exact ⟨c, r, rfl, by omega, h2⟩

/-- Every character of intLit is a minus sign or digit (code 45..57). -/
theorem intLit_chars (z : ℤ) : ∀ c ∈ intLit z, 45 ≤ c.toNat ∧ c.toNat ≤ 57 := by
  unfold intLit
  split
  · intro c hc
    rcases List.mem_cons.1 hc with rfl | hc
    · exact ⟨by decide, by decide⟩
    · have := toNat_of_jsDigit (natLit_digits z.natAbs c hc)
      omega
  · intro c hc
    have := toNat_of_jsDigit (natLit_digits z.natAbs c hc)
    omega

/-- Characters in code range 45..57 are not JavaScript whitespace. -/
theorem jsSpace_of_range {c : Char} (h1 : 45 ≤ c.toNat) (h2 : c.toNat ≤ 57) :
    jsSpace c = false := by
  simp only [jsSpace, decide_eq_false_iff_not]
  omega

/-- Characters in code range 45..57 are ASCII and not uppercase letters. -/
theorem jsToLower_of_range {c : Char} (h1 : c.toNat ≤ 57) : jsToLower c = c := by
  unfold jsToLower
  rw [dif_neg]
  omega

/-- takeWhile and dropWhile split an all-true prefix before a failing head. -/
theorem takeWhile_dropWhile_append {p : Char → Bool} (l r : List Char)
    (hl : ∀ x ∈ l, p x = true) (hr : ∀ c, r.head? = some c → p c = false) :
    (l ++ r).takeWhile p = l ∧ (l ++ r).dropWhile p = r := by
  induction l with
  | nil =>
    cases r with
    | nil => exact ⟨rfl, rfl⟩
    | cons c r' =>
      have := hr c rfl
      simp [List.takeWhile_cons, List.dropWhile_cons, this]
  | cons x l ih =>
    have hx := hl x (List.mem_cons_self x l)
    have ihl := ih fun y hy => hl y (List.mem_cons_of_mem x hy)
    simp only [List.cons_append, List.takeWhile_cons, List.dropWhile_cons, hx]
    simp [ihl.1, ihl.2]

/-- capInt on a rendered natural followed by a non-digit. -/
theorem capInt_natLit (n : ℕ) (rest : List Char)
    (hr : ∀ c, rest.head? = some c → jsDigit c = false) :
    capInt (natLit n ++ rest) = some ((n : ℤ), rest) := by
  cases hn : natLit n with
  | nil => exact absurd hn (natLit_ne_nil n)
  | cons c tl =>
    have hc : jsDigit c = true := natLit_digits n c (by rw [hn]; exact List.mem_cons_self c tl)
    have hcm : ¬c = '-' := by
      intro h
      rw [h] at hc
      cases hc
    obtain ⟨htake, hdrop⟩ := takeWhile_dropWhile_append (natLit n) rest (natLit_digits n) hr
    rw [hn] at htake hdrop
    show capInt (c :: (tl ++ rest)) = _
    rw [capInt.eq_def]
    simp only [if_neg hcm, ← List.cons_append, htake, hdrop, List.isEmpty_cons,
      Bool.false_eq_true, if_false]
    rw [← hn, digitsToNat_natLit]

/-- capInt on a rendered integer followed by a non-digit. -/
theorem capInt_intLit (z : ℤ) (rest : List Char)
    (hr : ∀ c, rest.head? = some c → jsDigit c = false) :
    capInt (intLit z ++ rest) = some (z, rest) := by
  by_cases hz : z < 0
  · have hform : intLit z = '-' :: natLit z.natAbs := by unfold intLit; rw [if_pos hz]
    obtain ⟨htake, hdrop⟩ :=
      takeWhile_dropWhile_append (natLit z.natAbs) rest (natLit_digits z.natAbs) hr
    rw [hform, List.cons_append, capInt.eq_def]
    simp only [if_pos rfl, htake, hdrop]
    rw [if_neg (fun h => natLit_ne_nil z.natAbs (List.isEmpty_iff.1 h))]
    rw [digitsToNat_natLit]
    have hval : -((z.natAbs : ℕ) : ℤ) = z := by omega
    rw [hval]
    simp
  · have : intLit z = natLit z.natAbs := by unfold intLit; rw [if_neg hz]
    rw [this, capInt_natLit z.natAbs rest hr]
    have : ((z.natAbs : ℕ) : ℤ) = z := by omega
    rw [this]

/-- dropWhile is the identity when the head fails the predicate. -/
theorem dropSpaces_eq_self {s : List Char} (h : ∀ c, s.head? = some c → jsSpace c = false) :
    dropSpaces s = s := by
  cases s with
  | nil => rfl
  | cons c r => simp [dropSpaces, List.dropWhile_cons, h c rfl]

/-- tailC consumes exactly a degree sign and a c. -/
theorem tailC_degc (rest : List Char) : tailC ('°' :: 'c' :: rest) = some rest := rfl

/-- A successful anchored match at the head settles the whole scan. -/
theorem scanMatch_here {α : Type} {f : List Char → Option α} {s : List Char} {x : α}
    (h : f s = some x) : scanMatch f s = some x := by
  cases s with
  | nil => exact h
  | cons c r =>
    show (f (c :: r)).orElse _ = some x
    rw [h]
    rfl

/-- R1 matches at the head of a dash-separated label with °C markers. -/
theorem matchR1At_dashLabel (a b : ℤ) (sep : List Char)
    (hsep : sep = ['-'] ∨ sep = ['–'] ∨ sep = ['—'] ∨ sep = ['t', 'o']) :
    matchR1At (dashLabel a b sep) = some (a, b) := by
  obtain ⟨c0, r0, hb0, hb1, hb2⟩ := intLit_cons b
  have hcap1 := capInt_intLit a ('°' :: 'c' :: (sep ++ (intLit b ++ ['°', 'c'])))
    (fun c h => by simp at h; subst h; decide)
  have hcap2 := capInt_intLit b ['°', 'c'] (fun c h => by simp at h; subst h; decide)
  have hds2 : dropSpaces (intLit b ++ ['°', 'c']) = intLit b ++ ['°', 'c'] := by
    apply dropSpaces_eq_self
    intro c h
    rw [hb0, List.cons_append] at h
    simp at h
    subst h
    exact jsSpace_of_range hb1 hb2
  have halt : altSep (dropSpaces (sep ++ (intLit b ++ ['°', 'c']))) =
      some (intLit b ++ ['°', 'c']) := by
    rcases hsep with rfl | rfl | rfl | rfl
    · show altSep (dropSpaces ('-' :: (intLit b ++ ['°', 'c']))) = _
      rw [dropSpaces_eq_self (fun c h => by simp at h; subst h; decide)]
      rfl
    · show altSep (dropSpaces ('–' :: (intLit b ++ ['°', 'c']))) = _
      rw [dropSpaces_eq_self (fun c h => by simp at h; subst h; decide)]
      rfl
    · show altSep (dropSpaces ('—' :: (intLit b ++ ['°', 'c']))) = _
      rw [dropSpaces_eq_self (fun c h => by simp at h; subst h; decide)]
      rfl
    · show altSep (dropSpaces ('t' :: 'o' :: (intLit b ++ ['°', 'c']))) = _
      rw [dropSpaces_eq_self (fun c h => by simp at h; subst h; decide)]
      rfl
  show matchR1At (intLit a ++ '°' :: 'c' :: (sep ++ (intLit b ++ ['°', 'c']))) = some (a, b)
  unfold matchR1At
  simp only [hcap1, tailC_degc, halt, hds2, hcap2]

/-- Mapping a fixpoint function over a list is the identity. -/
theorem map_jsToLower_id {l : List Char} (h : ∀ c ∈ l, jsToLower c = c) :
    l.map jsToLower = l := by
  induction l with
  | nil => rfl
  | cons c r ih =>
    rw [List.map_cons, h c (List.mem_cons_self c r),
      ih fun x hx => h x (List.mem_cons_of_mem c hx)]

/-- Characters below the uppercase range or above it are toLowerCase fixpoints. -/
theorem jsToLower_fix {c : Char} (h : c.toNat ≤ 57 ∨ 97 ≤ c.toNat) : jsToLower c = c := by
  unfold jsToLower
  rw [dif_neg]
  omega

/-- All characters of a dash label are toLowerCase fixpoints. -/
theorem jsToLower_fix_dashLabel (a b : ℤ) (sep : List Char)
    (hsep : sep = ['-'] ∨ sep = ['–'] ∨ sep = ['—'] ∨ sep = ['t', 'o']) :
    ∀ c ∈ dashLabel a b sep, jsToLower c = c := by
  intro c hc
  apply jsToLower_fix
  rcases hsep with rfl | rfl | rfl | rfl <;>
    simp only [dashLabel, List.mem_append, List.mem_cons, List.not_mem_nil, or_false] at hc
  · rcases hc with h | rfl | rfl | rfl | h | rfl | rfl
    · exact Or.inl (intLit_chars a c h).2
    · right; decide
    · right; decide
    · left; decide
    · exact Or.inl (intLit_chars b c h).2
    · right; decide
    · right; decide
  · rcases hc with h | rfl | rfl | rfl | h | rfl | rfl
    · exact Or.inl (intLit_chars a c h).2
    · right; decide
    · right; decide
    · right; decide
    · exact Or.inl (intLit_chars b c h).2
    · right; decide
    · right; decide
  · rcases hc with h | rfl | rfl | rfl | h | rfl | rfl
    · exact Or.inl (intLit_chars a c h).2
    · right; decide
    · right; decide
    · right; decide
    · exact Or.inl (intLit_chars b c h).2
    · right; decide
    · right; decide
  · rcases hc with h | rfl | rfl | (rfl | rfl) | h | rfl | rfl
    · exact Or.inl (intLit_chars a c h).2
    · right; decide
    · right; decide
    · right; decide
    · right; decide
    · exact Or.inl (intLit_chars b c h).2
    · right; decide
    · right; decide

/-- The parser on a dash label with °C markers: a range with sorted bounds
and midpoint representative. -/
theorem parse_dashLabel (a b : ℤ) (sep : List Char)
    (hsep : sep = ['-'] ∨ sep = ['–'] ∨ sep = ['—'] ∨ sep = ['t', 'o']) :
    parseOutcomeTitle (some (String.mk (dashLabel a b sep))) =
      some ⟨some (min a b), some (max a b),
        some ((((min a b : ℤ) : ℚ) + ((max a b : ℤ) : ℚ)) / 2)⟩ := by
  have hne : ¬(dashLabel a b sep = []) := by
    obtain ⟨c0, r0, h0, _, _⟩ := intLit_cons a
    simp [dashLabel, h0]
  have hscan : scanMatch matchR1At (dashLabel a b sep) = some (a, b) :=
    scanMatch_here (matchR1At_dashLabel a b sep hsep)
  show (if dashLabel a b sep = [] then none
    else parseTitleChars ((dashLabel a b sep).map jsToLower)) = _
  rw [if_neg hne, map_jsToLower_id (jsToLower_fix_dashLabel a b sep hsep)]
  unfold parseTitleChars
  rw [hscan]
  show (some ⟨some (if a ≤ b then a else b), some (if a ≤ b then b else a),
    some ((((if a ≤ b then a else b : ℤ) : ℚ) + ((if a ≤ b then b else a : ℤ) : ℚ)) / 2)⟩ :
      Option ParsedOutcome) = _
  rw [min_def, max_def]

/-- The remainder of a successful capture is part of the input. -/
theorem capInt_subset {s : List Char} {n : ℤ} {r : List Char}
    (h : capInt s = some (n, r)) : ∀ x ∈ r, x ∈ s := by
  cases s with
  | nil => cases h
  | cons c rest =>
    by_cases hc : c = '-'
    · by_cases hds : (rest.takeWhile jsDigit).isEmpty
      · simp [capInt, hc, hds] at h
      · have hr : r = rest.dropWhile jsDigit := by
          rw [capInt.eq_def] at h
          simp only [if_pos hc] at h
          rw [if_neg hds] at h
          injection h with h'
          injection h' with _ h2
          exact h2.symm
        subst hr
        exact fun x hx => List.mem_cons_of_mem c ((List.dropWhile_sublist jsDigit).subset hx)
    · by_cases hds : ((c :: rest).takeWhile jsDigit).isEmpty
      · simp [capInt, hc, hds] at h
      · have hr : r = (c :: rest).dropWhile jsDigit := by
          rw [capInt.eq_def] at h
          simp only [if_neg hc] at h
          rw [if_neg hds] at h
          injection h with h'
          injection h' with _ h2
          exact h2.symm
        subst hr
        exact fun x hx => (List.dropWhile_sublist jsDigit).subset hx

/-- skipOpt only removes a prefix. -/
theorem skipOpt_subset (c : Char) (s : List Char) : ∀ x ∈ skipOpt c s, x ∈ s := by
  intro x hx
  cases s with
  | nil => exact hx
  | cons y r =>
    simp only [skipOpt] at hx
    by_cases hy : y = c
    · rw [if_pos hy] at hx
      exact List.mem_cons_of_mem y hx
    · rw [if_neg hy] at hx
      exact hx

/-- A successful expectChar pins down the head. -/
theorem expectChar_eq {c : Char} {s r : List Char} (h : expectChar c s = some r) :
    s = c :: r := by
  cases s with
  | nil => cases h
  | cons x rest =>
    by_cases hx : x = c
    · simp only [expectChar, if_pos hx] at h
      injection h with h'
      subst h'
      rw [hx]
    · simp only [expectChar, if_neg hx] at h
      exact Option.noConfusion h

/-- tailC can only succeed on an input containing the letter c. -/
theorem tailC_c_mem {s r : List Char} (h : tailC s = some r) : 'c' ∈ s := by
  unfold tailC at h
  have h1 := expectChar_eq h
  have h2 : 'c' ∈ dropSpaces (skipOpt '°' (dropSpaces s)) := by
    rw [h1]
    exact List.mem_cons_self _ _
  have h3 := (List.dropWhile_sublist jsSpace).subset h2
  have h4 := skipOpt_subset '°' (dropSpaces s) _ h3
  exact (List.dropWhile_sublist jsSpace).subset h4

/-- R1 cannot match an input without the letter c. -/
theorem matchR1At_noC {s : List Char} (h : ¬('c' ∈ s)) : matchR1At s = none := by
  cases hm : matchR1At s with
  | none => rfl
  | some y =>
    exfalso
    unfold matchR1At at hm
    cases hc : capInt s with
    | none => simp only [hc] at hm; exact Option.noConfusion hm
    | some p =>
      obtain ⟨n, s1⟩ := p
      simp only [hc] at hm
      cases ht : tailC s1 with
      | none => simp only [ht] at hm; exact Option.noConfusion hm
      | some s2 => exact h (capInt_subset hc 'c' (tailC_c_mem ht))

/-- The letter c does not occur in a between label. -/
theorem c_not_mem_betweenLabel (a b : ℤ) : ¬('c' ∈ betweenLabel a b) := by
  intro hc
  simp only [betweenLabel, List.mem_append, List.mem_cons, List.not_mem_nil, or_false] at hc
  have h99 : ('c' : Char).toNat = 99 := rfl
  rcases hc with (rfl1 | rfl1 | rfl1 | rfl1 | rfl1 | rfl1 | rfl1 | rfl1 | h) |
      (rfl1 | rfl1 | rfl1 | rfl1 | rfl1 | h)
  all_goals first
    | exact absurd rfl1 (by decide)
    | (have h57 := (intLit_chars a 'c' h).2; omega)
    | (have h57 := (intLit_chars b 'c' h).2; omega)

/-- The R1 scan fails on a between label. -/
theorem scanR1_none_betweenLabel (a b : ℤ) :
    scanMatch matchR1At (betweenLabel a b) = none := by
  apply scanMatch_none_of matchR1At (fun c => decide (c = 'c'))
  · intro t ht
    apply matchR1At_noC
    intro hc
    have := ht 'c' hc
    simp at this
  · intro x hx
    simp only [decide_eq_false_iff_not]
    intro heq
    subst heq
    exact c_not_mem_betweenLabel a b hx

/-- The backtracking region of R2 on " and B": the greedy search succeeds on
the candidate that leaves the single space for the mandatory \\s+ before
"and", capturing B. -/
theorem r2Tail_and (b : ℤ) :
    r2Tail (' ' :: 'a' :: 'n' :: 'd' :: ' ' :: intLit b) = some (b, []) := by
  obtain ⟨c0, r0, hb0, hb1, hb2⟩ := intLit_cons b
  have hds : List.dropWhile jsSpace (intLit b) = intLit b := by
    rw [hb0]
    simp [List.dropWhile_cons, jsSpace_of_range hb1 hb2]
  have hcap : capInt (intLit b) = some (b, []) := by
    have h := capInt_intLit b [] (fun c h => by simp at h)
    rwa [List.append_nil] at h
  have hsp : jsSpace ' ' = true := by decide
  have hna : jsSpace 'a' = false := by decide
  have hdeg : ¬(('a' : Char) = '°') := by decide
  have hdeg2 : ¬((' ' : Char) = '°') := by decide
  have hcc : ¬(('a' : Char) = 'c') := by decide
  have hcc2 : ¬((' ' : Char) = 'c') := by decide
  simp only [r2Tail, spaceSplits, hsp, hna, if_true, if_false, Bool.false_eq_true,
    List.nil_append, List.cons_append, optSplits, if_neg hdeg, if_neg hdeg2,
    if_neg hcc, if_neg hcc2, List.findSome?_cons, plusSpacesMax, expectLit,
    if_pos rfl, dropSpaces, hds, hcap, List.dropWhile_cons]
  rfl

/-- R2 matches at the head of a between label, capturing both integers. -/
theorem matchR2At_betweenLabel (a b : ℤ) :
    matchR2At (betweenLabel a b) = some (a, b) := by
  obtain ⟨c0, r0, ha0, ha1, ha2⟩ := intLit_cons a
  have hexp : expectLit ['b', 'e', 't', 'w', 'e', 'e', 'n'] (betweenLabel a b) =
      some (' ' :: (intLit a ++ (' ' :: 'a' :: 'n' :: 'd' :: ' ' :: intLit b))) := rfl
  have hdsa : List.dropWhile jsSpace
      (intLit a ++ (' ' :: 'a' :: 'n' :: 'd' :: ' ' :: intLit b)) =
      intLit a ++ (' ' :: 'a' :: 'n' :: 'd' :: ' ' :: intLit b) := by
    rw [ha0, List.cons_append]
    simp [List.dropWhile_cons, jsSpace_of_range ha1 ha2]
  have hcapa : capInt (intLit a ++ (' ' :: 'a' :: 'n' :: 'd' :: ' ' :: intLit b)) =
      some (a, ' ' :: 'a' :: 'n' :: 'd' :: ' ' :: intLit b) :=
    capInt_intLit a _ (fun c h => by simp at h; subst h; decide)
  have hsp : jsSpace ' ' = true := by decide
  simp only [matchR2At, hexp, plusSpacesMax, hsp, if_true, dropSpaces, hdsa, hcapa,
    r2Tail_and]

/-- All characters of a between label are toLowerCase fixpoints. -/
theorem jsToLower_fix_betweenLabel (a b : ℤ) :
    ∀ c ∈ betweenLabel a b, jsToLower c = c := by
  intro c hc
  apply jsToLower_fix
  simp only [betweenLabel, List.mem_append, List.mem_cons, List.not_mem_nil, or_false] at hc
  rcases hc with (rfl | rfl | rfl | rfl | rfl | rfl | rfl | rfl | h) |
      (rfl | rfl | rfl | rfl | rfl | h)
  all_goals first
    | (right; decide)
    | (left; decide)
    | exact Or.inl (intLit_chars a c h).2
    | exact Or.inl (intLit_chars b c h).2

/-- The parser on a between label: a range with sorted bounds and midpoint
representative (R1 finds no match since the label has no letter c). -/
theorem parse_betweenLabel (a b : ℤ) :
    parseOutcomeTitle (some (String.mk (betweenLabel a b))) =
      some ⟨some (min a b), some (max a b),
        some ((((min a b : ℤ) : ℚ) + ((max a b : ℤ) : ℚ)) / 2)⟩ := by
  have hne : ¬(betweenLabel a b = []) := by simp [betweenLabel]
  have h1 := scanR1_none_betweenLabel a b
  have h2 : scanMatch matchR2At (betweenLabel a b) = some (a, b) :=
    scanMatch_here (matchR2At_betweenLabel a b)
  show (if betweenLabel a b = [] then none
    else parseTitleChars ((betweenLabel a b).map jsToLower)) = _
  rw [if_neg hne, map_jsToLower_id (jsToLower_fix_betweenLabel a b)]
  unfold parseTitleChars
  rw [h1, h2]
  show (some ⟨some (if a ≤ b then a else b), some (if a ≤ b then b else a),
    some ((((if a ≤ b then a else b : ℤ) : ℚ) + ((if a ≤ b then b else a : ℤ) : ℚ)) / 2)⟩ :
      Option ParsedOutcome) = _
  rw [min_def, max_def]

/-- C5 amended claim: a label of two °C-marked integers separated by a dash,
en-dash, em-dash or "to", and a label "between A and B", parse to the range
with lower = min, upper = max and representative = midpoint (the unmarked
dash form, e.g. "3-5", does not parse, per the counterexample). -/
theorem C5_amended_range_parsing (a b : ℤ) (sep : List Char)
    (hsep : sep ∈ [['-'], ['–'], ['—'], ['t', 'o']]) :
    parseOutcomeTitle (some (String.mk (dashLabel a b sep))) =
      some ⟨some (min a b), some (max a b),
        some ((((min a b : ℤ) : ℚ) + ((max a b : ℤ) : ℚ)) / 2)⟩ ∧
    parseOutcomeTitle (some (String.mk (betweenLabel a b))) =
      some ⟨some (min a b), some (max a b),
        some ((((min a b : ℤ) : ℚ) + ((max a b : ℤ) : ℚ)) / 2)⟩ := by
  have hsep' : sep = ['-'] ∨ sep = ['–'] ∨ sep = ['—'] ∨ sep = ['t', 'o'] := by
    simpa using hsep
  exact ⟨parse_dashLabel a b sep hsep', parse_betweenLabel a b⟩

unseal Rat.add Rat.mul Rat.inv in
/-- C5 amended witness: at a = 3, b = 5 with a plain dash the labels
"3°c-5°c" and "between 3 and 5" both parse to the range 3..5 with
representative 4. -/
theorem C5_amended_range_parsing_witness :
    (['-'] : List Char) ∈ [['-'], ['–'], ['—'], ['t', 'o']] ∧
    parseOutcomeTitle (some (String.mk (dashLabel 3 5 ['-']))) =
      some ⟨some (min 3 5), some (max 3 5),
        some ((((min 3 5 : ℤ) : ℚ) + ((max 3 5 : ℤ) : ℚ)) / 2)⟩ ∧
    parseOutcomeTitle (some (String.mk (betweenLabel 3 5))) =
      some ⟨some (min 3 5), some (max 3 5),
        some ((((min 3 5 : ℤ) : ℚ) + ((max 3 5 : ℤ) : ℚ)) / 2)⟩ :=
  ⟨by decide, (C5_amended_range_parsing 3 5 ['-'] (by decide)).1,
   (C5_amended_range_parsing 3 5 ['-'] (by decide)).2⟩

end Analyzer
